import Mathlib

/-!
Shallow embedding of `TriangularMap/tmap.py` (class `TMap`): a wrapper around a
1D buffer of length `N = n * (n + 1) / 2` providing access in triangular
coordinates `(start, end)` with `0 ≤ start < end ≤ n`.

Modelling conventions:
* buffers are Lean lists; Python integers are `Int` (sizes and lengths `Nat`);
* a raised exception is `none` / `Except.error`; in-place mutation is explicit
  state passing (the updated map is returned);
* `value_shape` and `linearise_blocks` play no role in the claims considered
  here and are not modelled;
* all Python divisions in this code divide an even product by 2, so float
  division followed by `int(...)` is exact integer division.
-/

namespace TriangularMap

/-- Python `range(a, b)` over integers, as a list (step 1). -/
def intRange (a b : Int) : List Int :=
  (List.range (b - a).toNat).map (fun i : Nat => a + (i : Int))

/-- Python list slicing `xs[a:b]` with step 1: negative bounds count from the
end of the list, and out-of-range bounds are clamped. -/
def pySlice {α : Type} (xs : List α) (a b : Int) : List α :=
  let conv : Int → Nat := fun i => (if i < 0 then i + xs.length else i).toNat
  (xs.take (conv b)).drop (conv a)

/-- `TMap.size1d_from_n`: length `N = n * (n + 1) / 2` of the underlying 1D
array for a triangular map of width `n`. -/
def size1d_from_n (n : Nat) : Nat := n * (n + 1) / 2

/-- `TMap.n_from_size1d`: width `n = (sqrt (8 N + 1) - 1) / 2` (floored) of the
map for a 1D size `N`; raises `ValueError` (modelled as `none`) when
`size1d_from_n` of that floor does not give back `N`. -/
def n_from_size1d (N : Nat) : Option Nat :=
  let n := (Nat.sqrt (8 * N + 1) - 1) / 2
  if size1d_from_n n = N then some n else none

/-- The `TMap` container: underlying 1D buffer `arr` and width `n`. -/
structure TMap (α : Type) where
  arr : List α
  n : Nat

/-- `TMap.__init__`: wrap a buffer, deriving the width from the buffer length
via `n_from_size1d`; fails when the length is not a triangular number. -/
def make {α : Type} (arr : List α) : Option (TMap α) :=
  (n_from_size1d arr.length).map (fun n => ⟨arr, n⟩)

/-- Invariant relating a map's buffer length to its width. -/
def wf {α : Type} (m : TMap α) : Prop := m.arr.length = size1d_from_n m.n

/-- `TMap.depth`: `d = n - (end - start)`. -/
def depth (n : Nat) (start e : Int) : Int := (n : Int) - (e - start)

/-- `TMap.level` (one-argument form): `level = n - depth`. -/
def level (n : Nat) (d : Int) : Int := (n : Int) - d

/-- `TMap.linear_from_start_end`: linear index
`depth * (depth + 1) / 2 + end - level` of the pair `(start, end)`. -/
def linear_from_start_end (n : Nat) (start e : Int) : Int :=
  depth n start e * (depth n start e + 1) / 2 + e - level n (depth n start e)

/-- The validity condition checked by `TMap._check`: `0 ≤ start < end ≤ n`. -/
def valid (n : Nat) (start e : Int) : Prop :=
  0 ≤ start ∧ start < e ∧ e ≤ (n : Int)

instance (n : Nat) (start e : Int) : Decidable (valid n start e) := by
  unfold valid; infer_instance

/-- Scalar case of `TMap._check` as a boolean: `0 ≤ start < end ≤ n`. -/
def check1 (n : Nat) (start e : Int) : Bool :=
  decide (0 ≤ start) && decide (start < e) && decide (e ≤ (n : Int))

theorem check1_eq_true_iff (n : Nat) (start e : Int) :
    check1 n start e = true ↔ valid n start e := by
  simp [check1, valid, and_assoc]

/-! ### Arithmetic facts about triangular numbers -/

theorem two_mul_size1d (n : Nat) : 2 * size1d_from_n n = n * (n + 1) := by
  have h : 2 ∣ n * (n + 1) := (Nat.even_mul_succ_self n).two_dvd
  exact Nat.mul_div_cancel' h

theorem size1d_succ (n : Nat) :
    size1d_from_n (n + 1) = size1d_from_n n + (n + 1) := by
  have h1 := two_mul_size1d n
  have h2 := two_mul_size1d (n + 1)
  have h3 : (n + 1) * (n + 1 + 1) = n * (n + 1) + 2 * (n + 1) := by ring
  omega

theorem size1d_mono {a b : Nat} (h : a ≤ b) : size1d_from_n a ≤ size1d_from_n b :=
  Nat.div_le_div_right (Nat.mul_le_mul h (by omega))

theorem sqrt_eight_size1d (n : Nat) :
    Nat.sqrt (8 * size1d_from_n n + 1) = 2 * n + 1 := by
  have h : 8 * size1d_from_n n + 1 = (2 * n + 1) ^ 2 := by
    have := two_mul_size1d n; ring_nf; nlinarith
  rw [h, Nat.sqrt_eq']

theorem n_from_size1d_size1d (n : Nat) :
    n_from_size1d (size1d_from_n n) = some n := by
  unfold n_from_size1d
  rw [sqrt_eight_size1d]
  simp

theorem n_from_size1d_isSome_iff (N : Nat) :
    (n_from_size1d N).isSome ↔ ∃ n, N = size1d_from_n n := by
  constructor
  · intro h
    simp only [n_from_size1d] at h
    split at h
    · next hc => exact ⟨_, hc.symm⟩
    · simp at h
  · rintro ⟨n, rfl⟩
    rw [n_from_size1d_size1d]
    rfl

theorem n_from_size1d_eq_some {N n : Nat} (h : n_from_size1d N = some n) :
    N = size1d_from_n n := by
  simp only [n_from_size1d] at h
  split at h <;> simp_all

theorem triInt_eq (k : Nat) :
    (k : Int) * ((k : Int) + 1) / 2 = (size1d_from_n k : Int) := by
  have h := two_mul_size1d k
  have h2 : (2 : Int) * (size1d_from_n k : Int) = (k : Int) * ((k : Int) + 1) := by
    exact_mod_cast congrArg (fun x : Nat => (x : Int)) h
  omega

/-- On the valid domain, parametrised by depth `k < n` and start `s ≤ k`, the
linear index is the `k`-th triangular number plus `s`. -/
theorem linear_eq_on (n k s : Nat) (hk : k < n) (hs : s ≤ k) :
    linear_from_start_end n (s : Int) ((s : Int) + ((n - k : Nat) : Int)) =
      (size1d_from_n k : Int) + (s : Int) := by
  have hd : depth n (s : Int) ((s : Int) + ((n - k : Nat) : Int)) = (k : Int) := by
    unfold depth
    push_cast [Nat.cast_sub hk.le]
    ring
  unfold linear_from_start_end level
  rw [hd, triInt_eq k]
  push_cast [Nat.cast_sub hk.le]
  ring

/-- `(start, end)` is valid iff it arises from a depth `k < n` and a start
`s ≤ k` via `end = start + (n - k)`. -/
theorem valid_iff_exists (n : Nat) (s e : Int) :
    valid n s e ↔
      ∃ k sn : Nat, k < n ∧ sn ≤ k ∧ s = (sn : Int) ∧
        e = (sn : Int) + ((n - k : Nat) : Int) := by
  constructor
  · rintro ⟨h0, h1, h2⟩
    refine ⟨((n : Int) - (e - s)).toNat, s.toNat, ?_, ?_, ?_, ?_⟩ <;> omega
  · rintro ⟨k, sn, hk, hs, rfl, rfl⟩
    refine ⟨?_, ?_, ?_⟩ <;> omega

theorem linNat_lt (n k s : Nat) (hk : k < n) (hs : s ≤ k) :
    size1d_from_n k + s < size1d_from_n n := by
  have h1 := size1d_succ k
  have h2 := size1d_mono (show k + 1 ≤ n by omega)
  omega

theorem linNat_inj {k1 s1 k2 s2 : Nat} (h1 : s1 ≤ k1) (h2 : s2 ≤ k2)
    (h : size1d_from_n k1 + s1 = size1d_from_n k2 + s2) : k1 = k2 ∧ s1 = s2 := by
  rcases Nat.lt_trichotomy k1 k2 with hlt | heq | hgt
  · have ha := size1d_succ k1
    have hb := size1d_mono (show k1 + 1 ≤ k2 by omega)
    omega
  · subst heq; omega
  · have ha := size1d_succ k2
    have hb := size1d_mono (show k2 + 1 ≤ k1 by omega)
    omega

theorem linNat_surj (n : Nat) : ∀ i : Nat, i < size1d_from_n n →
    ∃ k s : Nat, k < n ∧ s ≤ k ∧ size1d_from_n k + s = i := by
  induction n with
  | zero => intro i h; simp [size1d_from_n] at h
  | succ m ih =>
    intro i h
    by_cases hc : i < size1d_from_n m
    · obtain ⟨k, s, hk, hs, he⟩ := ih i hc
      exact ⟨k, s, Nat.lt_succ_of_lt hk, hs, he⟩
    · refine ⟨m, i - size1d_from_n m, Nat.lt_succ_self m, ?_, ?_⟩ <;>
      · have := size1d_succ m; omega

/-- C1: For every width `n ≥ 0`, the map `(start, end) ↦ depth*(depth+1)/2 +
end - level` computed by `linear_from_start_end` is a total bijection from the
valid domain `0 ≤ start < end ≤ n` onto the linear index range `[0, N)` with
`N = n*(n+1)/2`: it lands in range, is injective, and every index in range is
hit; in particular for `n = 6` it maps `(0,6)` to `0` and `(5,6)` to `20`. -/
theorem C1_linear_bijection (n : Nat) :
    (∀ s e : Int, valid n s e →
        0 ≤ linear_from_start_end n s e ∧
        linear_from_start_end n s e < (size1d_from_n n : Int)) ∧
    (∀ s1 e1 s2 e2 : Int, valid n s1 e1 → valid n s2 e2 →
        linear_from_start_end n s1 e1 = linear_from_start_end n s2 e2 →
        s1 = s2 ∧ e1 = e2) ∧
    (∀ i : Int, 0 ≤ i → i < (size1d_from_n n : Int) →
        ∃ s e : Int, valid n s e ∧ linear_from_start_end n s e = i) ∧
    linear_from_start_end 6 0 6 = 0 ∧ linear_from_start_end 6 5 6 = 20 := by
  refine ⟨?_, ?_, ?_, by decide, by decide⟩
  · intro s e hv
    obtain ⟨k, sn, hk, hs, rfl, rfl⟩ := (valid_iff_exists n s e).mp hv
    rw [linear_eq_on n k sn hk hs]
    have hlt := linNat_lt n k sn hk hs
    constructor
    · positivity
    · exact_mod_cast hlt
  · intro s1 e1 s2 e2 h1 h2 heq
    obtain ⟨k1, sn1, hk1, hs1, rfl, rfl⟩ := (valid_iff_exists n s1 e1).mp h1
    obtain ⟨k2, sn2, hk2, hs2, rfl, rfl⟩ := (valid_iff_exists n s2 e2).mp h2
    rw [linear_eq_on n k1 sn1 hk1 hs1, linear_eq_on n k2 sn2 hk2 hs2] at heq
    have hN : size1d_from_n k1 + sn1 = size1d_from_n k2 + sn2 := by
      exact_mod_cast heq
    obtain ⟨hkk, hss⟩ := linNat_inj hs1 hs2 hN
    subst hkk; subst hss
    exact ⟨rfl, rfl⟩
  · intro i h0 hN
    obtain ⟨k, s, hk, hs, he⟩ := linNat_surj n i.toNat (by omega)
    refine ⟨(s : Int), (s : Int) + ((n - k : Nat) : Int), ?_, ?_⟩
    · exact (valid_iff_exists n _ _).mpr ⟨k, s, hk, hs, rfl, rfl⟩
    · rw [linear_eq_on n k s hk hs]; omega

/-- Witness for C1 at `n = 6`, `(start, end) = (2, 5)`. -/
theorem C1_linear_bijection_witness :
    0 ≤ linear_from_start_end 6 2 5 ∧
      linear_from_start_end 6 2 5 < (size1d_from_n 6 : Int) :=
  (C1_linear_bijection 6).1 2 5 (by decide)

theorem make_length_triangular {α : Type} (arr : List α) (n : Nat)
    (h : arr.length = size1d_from_n n) : make arr = some ⟨arr, n⟩ := by
  unfold make
  rw [h, n_from_size1d_size1d]
  rfl

theorem not_triangular_five : ∀ n : Nat, size1d_from_n n ≠ 5 := by
  intro n
  rcases le_or_lt n 2 with h2 | h3
  · have h := size1d_mono h2
    have h2' : size1d_from_n 2 = 3 := rfl
    omega
  · have h := size1d_mono (show 3 ≤ n by omega)
    have h3' : size1d_from_n 3 = 6 := rfl
    omega

theorem n_from_size1d_five : n_from_size1d 5 = none := by
  cases hn : n_from_size1d 5 with
  | none => rfl
  | some n => exact absurd (n_from_size1d_eq_some hn).symm (not_triangular_five n)

/-- C6: the width-from-size computation inverts the size-from-width one
(`n_from_size1d (size1d_from_n n) = some n` for every `n ≥ 0`), and on the
valid domain `depth (start, end) + level (depth (start, end)) = n`. -/
theorem C6_roundtrip_depth_level (n : Nat) :
    n_from_size1d (size1d_from_n n) = some n ∧
    (∀ s e : Int, valid n s e →
        depth n s e + level n (depth n s e) = (n : Int)) := by
  refine ⟨n_from_size1d_size1d n, fun s e _ => ?_⟩
  unfold depth level
  ring

/-- Witness for C6 at `n = 6`, `(start, end) = (0, 6)`. -/
theorem C6_roundtrip_depth_level_witness :
    n_from_size1d (size1d_from_n 6) = some 6 ∧
      depth 6 0 6 + level 6 (depth 6 0 6) = ((6 : Nat) : Int) :=
  ⟨(C6_roundtrip_depth_level 6).1, (C6_roundtrip_depth_level 6).2 0 6 (by decide)⟩

/-- C7: construction (`make`, i.e. `TMap.__init__`) succeeds exactly when the
buffer length is a triangular number `n*(n+1)/2`; in particular a buffer of
length 5 is rejected. -/
theorem C7_construction_size_check (α : Type) :
    (∀ arr : List α, (make arr).isSome ↔ ∃ n, arr.length = size1d_from_n n) ∧
    make ([0, 0, 0, 0, 0] : List Nat) = none := by
  constructor
  · intro arr
    unfold make
    rw [show ∀ o : Option Nat, ∀ f : Nat → TMap α, (o.map f).isSome = o.isSome
        from fun o f => by cases o <;> rfl]
    exact n_from_size1d_isSome_iff arr.length
  · simp [make, show List.length ([0, 0, 0, 0, 0] : List Nat) = 5 from rfl,
      n_from_size1d_five]

/-- Unchecked buffer read at `(start, end)`: the read `self.arr[linear_idx]`
performed by `__getitem__` once `_check` has passed. -/
def el {α : Type} [Inhabited α] (m : TMap α) (start e : Int) : α :=
  m.arr.getD (linear_from_start_end m.n start e).toNat default

/-- Scalar `TMap.__getitem__` at a `(start, end)` pair: `_check`, then read at
the linear index; a raised `IndexError` is modelled as `none`. -/
def getitem_el {α : Type} [Inhabited α] (m : TMap α) (start e : Int) :
    Option α :=
  if check1 m.n start e then some (el m start e) else none

/-- Scalar `TMap.__setitem__`: `_check`, then write at the linear index. A
raised `IndexError` is `none`: since in the source the `_check` call precedes
the single buffer write, a failed check produces no modified buffer at all. -/
def setitem {α : Type} (m : TMap α) (start e : Int) (v : α) : Option (TMap α) :=
  if check1 m.n start e then
    some ⟨m.arr.set (linear_from_start_end m.n start e).toNat v, m.n⟩
  else none

/-- Vectorised `TMap.__getitem__` on parallel index arrays (modelled as a list
of `(start, end)` pairs): `_check` requires every pair to pass. -/
def getitem_vec {α : Type} [Inhabited α] (m : TMap α) (ps : List (Int × Int)) :
    Option (List α) :=
  if ps.all (fun p => check1 m.n p.1 p.2) then
    some (ps.map fun p => el m p.1 p.2)
  else none

/-- Vectorised `TMap.__setitem__` writing parallel values at parallel index
arrays; all pairs must pass `_check` before any element is written. -/
def setitem_vec {α : Type} (m : TMap α) (ps : List (Int × Int)) (vs : List α) :
    Option (TMap α) :=
  if ps.all (fun p => check1 m.n p.1 p.2) then
    some ⟨(ps.zip vs).foldl
      (fun a pv => a.set (linear_from_start_end m.n pv.1.1 pv.1.2).toNat pv.2)
      m.arr, m.n⟩
  else none

/-- C3: element access and assignment via `(start, end)` raise an index-range
error exactly when `¬ (0 ≤ start < end ≤ n)`, for scalar inputs and
element-wise for parallel-array inputs (all elements must pass); a failed
assignment produces no updated buffer (in the source, `_check` precedes the
buffer write, so the buffer is untouched on failure). -/
theorem C3_access_validation (α : Type) [Inhabited α] (m : TMap α)
    (start e : Int) (v : α) (ps : List (Int × Int)) (vs : List α) :
    (getitem_el m start e = none ↔ ¬ valid m.n start e) ∧
    (setitem m start e v = none ↔ ¬ valid m.n start e) ∧
    (getitem_vec m ps = none ↔ ¬ ∀ p ∈ ps, valid m.n p.1 p.2) ∧
    (setitem_vec m ps vs = none ↔ ¬ ∀ p ∈ ps, valid m.n p.1 p.2) := by
  refine ⟨?_, ?_, ?_, ?_⟩ <;>
    simp [getitem_el, setitem, getitem_vec, setitem_vec, check1_eq_true_iff,
      List.all_eq_true]

/-- Witness for C3: on a width-1 map, the out-of-range scalar pair `(0, 2)`
and the vectorised pair list `[(0, 2)]` are all rejected. -/
theorem C3_access_validation_witness :
    (getitem_el (⟨[7], 1⟩ : TMap Nat) 0 2 = none ↔
      ¬ valid (⟨[7], 1⟩ : TMap Nat).n 0 2) ∧
    (setitem (⟨[7], 1⟩ : TMap Nat) 0 2 9 = none ↔
      ¬ valid (⟨[7], 1⟩ : TMap Nat).n 0 2) ∧
    (getitem_vec (⟨[7], 1⟩ : TMap Nat) [(0, 2)] = none ↔
      ¬ ∀ p ∈ [((0 : Int), (2 : Int))], valid (⟨[7], 1⟩ : TMap Nat).n p.1 p.2) ∧
    (setitem_vec (⟨[7], 1⟩ : TMap Nat) [(0, 2)] [9] = none ↔
      ¬ ∀ p ∈ [((0 : Int), (2 : Int))], valid (⟨[7], 1⟩ : TMap Nat).n p.1 p.2) :=
  C3_access_validation Nat ⟨[7], 1⟩ 0 2 9 [(0, 2)] [9]

/-- `TMap.end_indices_for_sslice`: `np.arange(start + 1, n + 1)`. -/
def end_indices_for_sslice (n : Nat) (start : Int) : List Int :=
  intRange (start + 1) ((n : Int) + 1)

/-- `TMap.start_indices_for_eslice`: `np.arange(0, end)`. -/
def start_indices_for_eslice (e : Int) : List Int :=
  intRange 0 e

/-- `TMap.get_sslice` (plain index, no extra sub-slice): the advanced-indexing
read `self[start, end_indices]`. -/
def get_sslice {α : Type} [Inhabited α] (m : TMap α) (start : Int) :
    Option (List α) :=
  getitem_vec m ((end_indices_for_sslice m.n start).map fun e => (start, e))

/-- `TMap.get_eslice` (plain index, no extra sub-slice): the advanced-indexing
read `self[start_indices, end]`. -/
def get_eslice {α : Type} [Inhabited α] (m : TMap α) (e : Int) :
    Option (List α) :=
  getitem_vec m ((start_indices_for_eslice e).map fun s => (s, e))

/-- C10: because `_check` passes vacuously on empty index arrays,
`get_sslice start` for `start ≥ n` and `get_eslice 0` return an empty result
without raising, although no valid `(start, end)` pair is in the slice. -/
theorem C10_vacuous_empty_slices (α : Type) [Inhabited α] (m : TMap α)
    (start : Int) (h : (m.n : Int) ≤ start) :
    get_sslice m start = some [] ∧ get_eslice m 0 = some [] := by
  have h1 : end_indices_for_sslice m.n start = [] := by
    unfold end_indices_for_sslice intRange
    rw [show ((m.n : Int) + 1 - (start + 1)).toNat = 0 by omega]
    rfl
  have h2 : start_indices_for_eslice 0 = [] := rfl
  constructor
  · simp [get_sslice, h1, getitem_vec]
  · simp [get_eslice, h2, getitem_vec]

/-- Witness for C10: a width-1 map sliced at `start = 5` and `end = 0`. -/
theorem C10_vacuous_empty_slices_witness :
    get_sslice (⟨[3], 1⟩ : TMap Nat) 5 = some [] ∧
      get_eslice (⟨[3], 1⟩ : TMap Nat) 0 = some [] :=
  C10_vacuous_empty_slices Nat ⟨[3], 1⟩ 5 (by decide)

/-- `TMap.linear_start_end_from_level`: first and last linear index (both
inclusive) of the values on a whole level. -/
def linear_start_end_from_level (n : Nat) (l : Int) : Int × Int :=
  (linear_from_start_end n 0 l, linear_from_start_end n ((n : Int) - l) n)

/-- `TMap.lslice`: the buffer segment `arr[linear_start : linear_end + 1]`. -/
def lslice {α : Type} (m : TMap α) (l : Int) : List α :=
  pySlice m.arr (linear_start_end_from_level m.n l).1
    ((linear_start_end_from_level m.n l).2 + 1)

/-- `TMap.dslice`: `lslice` at `level(depth)`. -/
def dslice {α : Type} (m : TMap α) (d : Int) : List α :=
  lslice m (level m.n d)

theorem pySlice_eq_drop_take {α : Type} (xs : List α) (a b : Nat) :
    pySlice xs (a : Int) (b : Int) = (xs.take b).drop a := by
  unfold pySlice
  dsimp only
  rw [if_neg (by omega : ¬ ((b : Int) < 0)), if_neg (by omega : ¬ ((a : Int) < 0))]
  simp

theorem drop_take_eq_map_getD {α : Type} [Inhabited α] (xs : List α)
    (a k : Nat) (h : a + k ≤ xs.length) :
    (xs.take (a + k)).drop a =
      (List.range k).map (fun i => xs.getD (a + i) default) := by
  apply List.ext_getElem
  · simp
    omega
  · intro i h1 h2
    have hlt : a + i < xs.length := by
      simp at h1
      omega
    rw [List.getElem_drop, List.getElem_take, List.getElem_map,
      List.getElem_range, List.getD_eq_getElem xs default hlt]

/-- C2: for `1 ≤ level ≤ n`, `lslice level` is exactly the list of level
elements `(start, start + level)` for `start = 0 .. n - level` in increasing
start order (the buffer segment between the inclusive linear bounds
`linear_from_start_end 0 level` and `linear_from_start_end (n-level) n`), and
`dslice depth` with `level = n - depth` is the same slice. -/
theorem C2_level_slice (α : Type) [Inhabited α] (m : TMap α) (hwf : wf m)
    (l : Int) (h1 : 1 ≤ l) (h2 : l ≤ (m.n : Int)) :
    lslice m l =
      (List.range (m.n + 1 - l.toNat)).map
        (fun s : Nat => el m (s : Int) ((s : Int) + l)) ∧
    dslice m ((m.n : Int) - l) = lslice m l := by
  constructor
  · obtain ⟨nl, rfl⟩ : ∃ nl : Nat, l = (nl : Int) := ⟨l.toNat, by omega⟩
    rw [show ((nl : Int)).toNat = nl by simp]
    have hnl1 : 1 ≤ nl := by exact_mod_cast h1
    have hnl2 : nl ≤ m.n := by exact_mod_cast h2
    set k := m.n - nl with hk
    have hkn : k < m.n := by omega
    have hnk : m.n - k = nl := by omega
    have ha : linear_from_start_end m.n 0 (nl : Int) =
        ((size1d_from_n k : Nat) : Int) := by
      have hthis := linear_eq_on m.n k 0 hkn (Nat.zero_le k)
      rw [hnk] at hthis
      simpa using hthis
    have hb : linear_from_start_end m.n ((m.n : Int) - (nl : Int)) (m.n : Int) =
        ((size1d_from_n k : Nat) : Int) + (k : Int) := by
      have hthis := linear_eq_on m.n k k hkn le_rfl
      rw [hnk] at hthis
      have e1 : ((m.n : Int) - (nl : Int)) = (k : Int) := by omega
      have e2 : (m.n : Int) = (k : Int) + (nl : Int) := by omega
      rw [e1, e2]
      exact hthis
    unfold lslice linear_start_end_from_level
    dsimp only
    rw [ha, hb]
    have hcast : ((size1d_from_n k : Nat) : Int) + (k : Int) + 1 =
        ((size1d_from_n k + (k + 1) : Nat) : Int) := by push_cast; ring
    rw [hcast, pySlice_eq_drop_take m.arr (size1d_from_n k) _]
    have hlen : size1d_from_n k + (k + 1) ≤ m.arr.length := by
      rw [hwf]
      have := size1d_succ k
      have := size1d_mono (show k + 1 ≤ m.n by omega)
      omega
    rw [show size1d_from_n k + (k + 1) = size1d_from_n k + (k + 1) from rfl,
      drop_take_eq_map_getD m.arr (size1d_from_n k) (k + 1) hlen]
    rw [show m.n + 1 - nl = k + 1 by omega]
    apply List.map_congr_left
    intro i hi
    have hik : i ≤ k := by
      have := List.mem_range.mp hi
      omega
    unfold el
    congr 1
    have hlin : linear_from_start_end m.n (i : Int) ((i : Int) + (nl : Int)) =
        ((size1d_from_n k : Nat) : Int) + (i : Int) := by
      have hthis := linear_eq_on m.n k i hkn hik
      rw [hnk] at hthis
      exact hthis
    rw [hlin]
    omega
  · show lslice m (level m.n ((m.n : Int) - l)) = lslice m l
    congr 1
    unfold level
    ring

/-- Witness for C2: the bottom level (`level = 1`) of a width-2 map holds the
elements `(0,1)` and `(1,2)`. -/
theorem C2_level_slice_witness :
    lslice (⟨[10, 20, 30], 2⟩ : TMap Nat) 1 =
      (List.range ((⟨[10, 20, 30], 2⟩ : TMap Nat).n + 1 - (1 : Int).toNat)).map
        (fun s : Nat => el (⟨[10, 20, 30], 2⟩ : TMap Nat) (s : Int) ((s : Int) + 1)) ∧
    dslice (⟨[10, 20, 30], 2⟩ : TMap Nat)
        (((⟨[10, 20, 30], 2⟩ : TMap Nat).n : Int) - 1) =
      lslice (⟨[10, 20, 30], 2⟩ : TMap Nat) 1 :=
  C2_level_slice Nat ⟨[10, 20, 30], 2⟩ rfl 1 (by decide) (by decide)

/-- `TMap.top` with an explicit depth argument: wraps the buffer prefix
`arr[: linear_end + 1]` for the level `level (depth - 1)` in a new `TMap`
(whose constructor re-derives the width from the prefix length). The argument
counts how many levels from the top to include (`top 0` is empty). -/
def top {α : Type} (m : TMap α) (d : Int) : Option (TMap α) :=
  make (pySlice m.arr 0
    ((linear_start_end_from_level m.n (level m.n (d - 1))).2 + 1))

/-- `TMap.copy`: copy the buffer and rewrap it in the constructor. -/
def copy {α : Type} (m : TMap α) : Option (TMap α) := make m.arr

/-- `TMap.__getitem__` with a `start:end` slice (step `None`): concatenates,
depth by depth from the window's own start depth, windowed depth slices, and
wraps the concatenation in a new `TMap`. -/
def subWindow {α : Type} (m : TMap α) (start e : Int) : Option (TMap α) :=
  let start_depth := depth m.n start e
  make ((intRange start_depth (m.n : Int)).map
    (fun d => pySlice (dslice m d) start (start + (d - start_depth) + 1))).join

theorem pySlice_nonneg {α : Type} (xs : List α) (a b : Int) (ha : 0 ≤ a)
    (hb : 0 ≤ b) : pySlice xs a b = (xs.take b.toNat).drop a.toNat := by
  unfold pySlice
  dsimp only
  rw [if_neg (by omega), if_neg (by omega)]

theorem linear_end_from_level (n nl : Nat) (h1 : 1 ≤ nl) (h2 : nl ≤ n) :
    linear_from_start_end n ((n : Int) - (nl : Int)) (n : Int) =
      ((size1d_from_n (n - nl) : Nat) : Int) + ((n - nl : Nat) : Int) := by
  have hthis := linear_eq_on n (n - nl) (n - nl) (by omega) le_rfl
  rw [show n - (n - nl) = nl by omega] at hthis
  have e1 : ((n : Int) - (nl : Int)) = ((n - nl : Nat) : Int) := by omega
  have e2 : (n : Int) = ((n - nl : Nat) : Int) + (nl : Int) := by omega
  rw [e1, e2]
  exact hthis

/-- C4 counterexample: on the width-2 map `[10, 20, 30]`, `top 1` keeps only
the first `1*(1+1)/2 = 1` element, not the first `(1+1)*(1+2)/2 = 3` elements
that "all elements from depth 0 up to and including depth 1" would require. -/
theorem C4_top_counterexample :
    top (⟨[10, 20, 30], 2⟩ : TMap Nat) 1 = some ⟨[10], 1⟩ ∧
    (⟨[10, 20, 30], 2⟩ : TMap Nat).arr.take ((1 + 1) * (1 + 2) / 2) ≠ [10] := by
  constructor
  · show make ([10] : List Nat) = some ⟨[10], 1⟩
    exact make_length_triangular [10] 1 rfl
  · decide

/-- C4 (amended): for `0 ≤ d ≤ n`, `top d` returns the container over the
prefix of the linear buffer holding the `d` topmost levels, i.e. all elements
from depth 0 up to and including depth `d - 1`: the first `d*(d+1)/2` buffer
elements, with width `d`. -/
theorem C4_top_prefix (α : Type) (m : TMap α) (hwf : wf m) (d : Int)
    (h0 : 0 ≤ d) (hn : d ≤ (m.n : Int)) :
    top m d = some ⟨m.arr.take (size1d_from_n d.toNat), d.toNat⟩ := by
  obtain ⟨dn, rfl⟩ : ∃ dn : Nat, d = (dn : Int) := ⟨d.toNat, by omega⟩
  rw [show ((dn : Int)).toNat = dn by simp]
  have hdn : dn ≤ m.n := by exact_mod_cast hn
  unfold top
  rcases Nat.eq_zero_or_pos dn with hz | hpos
  · subst hz
    have hend : (linear_start_end_from_level m.n
        (level m.n (((0 : Nat) : Int) - 1))).2 = -1 := by
      unfold linear_start_end_from_level level
      dsimp only
      have hd : depth m.n ((m.n : Int) - ((m.n : Int) - (((0 : Nat) : Int) - 1)))
          (m.n : Int) = -1 := by
        unfold depth; ring
      unfold linear_from_start_end
      rw [hd]
      unfold level
      norm_num
    rw [hend]
    norm_num
    have hps : pySlice m.arr 0 0 = [] := by
      rw [pySlice_nonneg m.arr 0 0 le_rfl le_rfl]
      simp
    rw [hps]
    simpa using make_length_triangular ([] : List α) 0 rfl
  · set nl := m.n - dn + 1 with hnl
    have hl : level m.n ((dn : Int) - 1) = ((nl : Nat) : Int) := by
      unfold level; omega
    rw [hl]
    have hnl1 : 1 ≤ nl := by omega
    have hnl2 : nl ≤ m.n := by omega
    have hk : m.n - nl = dn - 1 := by omega
    unfold linear_start_end_from_level
    dsimp only
    rw [linear_end_from_level m.n nl hnl1 hnl2, hk]
    have hcast : ((size1d_from_n (dn - 1) : Nat) : Int) +
        ((dn - 1 : Nat) : Int) + 1 = ((size1d_from_n dn : Nat) : Int) := by
      have hsucc := size1d_succ (dn - 1)
      rw [show dn - 1 + 1 = dn by omega] at hsucc
      push_cast
      omega
    rw [hcast, pySlice_nonneg m.arr 0 _ le_rfl (by positivity)]
    rw [show ((0 : Int)).toNat = 0 by rfl, List.drop_zero,
      show (((size1d_from_n dn : Nat) : Int)).toNat = size1d_from_n dn by simp]
    refine make_length_triangular _ dn ?_
    rw [List.length_take, hwf]
    have := size1d_mono hdn
    omega

/-- Witness for the amended C4 at the width-2 map `[10, 20, 30]`, `d = 1`. -/
theorem C4_top_prefix_witness :
    top (⟨[10, 20, 30], 2⟩ : TMap Nat) 1 =
      some ⟨(⟨[10, 20, 30], 2⟩ : TMap Nat).arr.take
        (size1d_from_n ((1 : Int)).toNat), ((1 : Int)).toNat⟩ :=
  C4_top_prefix Nat ⟨[10, 20, 30], 2⟩ rfl 1 (by decide) (by decide)

theorem make_wf {α : Type} {arr : List α} {m : TMap α} (h : make arr = some m) :
    wf m := by
  unfold make at h
  cases hn : n_from_size1d arr.length with
  | none => rw [hn] at h; simp at h
  | some k =>
    rw [hn] at h
    simp at h
    subst h
    show arr.length = size1d_from_n k
    exact n_from_size1d_eq_some hn

/-- C9: every container built by checked construction (`make`), by `copy`, by
`top`, or by sub-window extraction satisfies `len(buffer) = n*(n+1)/2` for its
stored width `n`: each of these funnels its buffer through the constructor,
which re-derives the width and rejects non-triangular lengths. -/
theorem C9_invariant (α : Type) :
    (∀ (arr : List α) (m : TMap α), make arr = some m → wf m) ∧
    (∀ m m' : TMap α, copy m = some m' → wf m') ∧
    (∀ (m : TMap α) (d : Int) (m' : TMap α), top m d = some m' → wf m') ∧
    (∀ (m : TMap α) (s e : Int) (m' : TMap α),
      subWindow m s e = some m' → wf m') := by
  refine ⟨fun _ _ h => make_wf h, fun _ _ h => make_wf h,
    fun _ _ _ h => make_wf h, fun m s e m' h => ?_⟩
  unfold subWindow at h
  exact make_wf h

/-- Witness for C9: `make [5]` yields a well-formed width-1 container. -/
theorem C9_invariant_witness : wf (⟨[5], 1⟩ : TMap Nat) :=
  (C9_invariant Nat).1 [5] ⟨[5], 1⟩ (make_length_triangular [5] 1 rfl)

/-- Dimension characters of `TMap.flatten_regex` (the class `[sel]`). -/
def isDim (c : Char) : Bool := c == 's' || c == 'e' || c == 'l'

/-- Sign characters of `TMap.flatten_regex` (the class `[+-]`). -/
def isSign (c : Char) : Bool := c == '+' || c == '-'

/-- Matching against `TMap.flatten_regex`
(`^(?P<outer_sign>[+-]?)(?P<outer>[sel])(?P<inner_sign>[+-]?)(?P<inner>[sel])$`):
returns (outer sign is minus, outer dim, inner sign is minus, inner dim).
Sign and dimension characters are disjoint classes, so matching is decided by
the string length and the class of each character. -/
def matchOrder : List Char → Option (Bool × Char × Bool × Char)
  | [o, i] => if isDim o && isDim i then some (false, o, false, i) else none
  | [a, b, c] =>
    if isSign a && isDim b && isDim c then some (a == '-', b, false, c)
    else if isDim a && isSign b && isDim c then some (false, a, b == '-', c)
    else none
  | [a, b, c, d] =>
    if isSign a && isDim b && isSign c && isDim d then
      some (a == '-', b, c == '-', d)
    else none
  | _ => none

/-- Errors raised by `TMap.flatten`: the two `ValueError`s of the order
validation, and the `ValueError` that `np.concatenate` (or `torch.cat`)
raises when handed an empty tuple of slices. -/
inductive FlattenError : Type
  | invalidOrder : FlattenError
  | invalidPairing : FlattenError
  | emptyConcat : FlattenError
deriving DecidableEq

/-- The values gathered by a start-slice at `start`: elements `(start, end)`
for `end = start+1 .. n`. Inside `flatten`, `self.sslice[start]` is called
only for `start = 0 .. n-1`, where its `_check` always passes, so the checked
wrapper is not modelled here. -/
def sslice_vals {α : Type} [Inhabited α] (m : TMap α) (start : Int) : List α :=
  (end_indices_for_sslice m.n start).map (fun e => el m start e)

/-- The values gathered by an end-slice at `end`: elements `(start, end)` for
`start = 0 .. end-1`. Inside `flatten`, `self.eslice[end]` is called only for
`end = 1 .. n`, where its `_check` always passes. -/
def eslice_vals {α : Type} [Inhabited α] (m : TMap α) (e : Int) : List α :=
  (start_indices_for_eslice e).map (fun s => el m s e)

/-- `TMap.flatten`: match the order string against `flatten_regex`, check the
outer/inner dimension pairing, collect the outer slices (`sslice` for
`start in range(n)`, `eslice` for `end in range(1, n+1)`, `lslice` for
`level in range(1, n+1)`), reverse the slice list for a `-` outer sign,
reverse each slice for a `-` inner sign, and concatenate. `np.concatenate`
and `torch.cat` raise when the tuple of slices is empty (only for `n = 0`). -/
def flatten {α : Type} [Inhabited α] (m : TMap α) (order : String) :
    Except FlattenError (List α) :=
  match matchOrder order.data with
  | none => Except.error FlattenError.invalidOrder
  | some (outerNeg, outerDim, innerNeg, innerDim) =>
    if (outerDim, innerDim) ∈
        ([('s', 'e'), ('e', 's'), ('l', 's')] : List (Char × Char)) then
      let slices :=
        if outerDim == 's' then
          (intRange 0 (m.n : Int)).map (fun st => sslice_vals m st)
        else if outerDim == 'e' then
          (intRange 1 ((m.n : Int) + 1)).map (fun e => eslice_vals m e)
        else
          (intRange 1 ((m.n : Int) + 1)).map (fun l => lslice m l)
      let slices1 := if outerNeg then slices.reverse else slices
      let slices2 := if innerNeg then slices1.map List.reverse else slices1
      if slices2.isEmpty then Except.error FlattenError.emptyConcat
      else Except.ok slices2.join
    else Except.error FlattenError.invalidPairing

theorem intRange_zero (n : Nat) :
    intRange 0 (n : Int) = (List.range n).map (fun i : Nat => (i : Int)) := by
  unfold intRange
  rw [show ((n : Int) - 0).toNat = n by omega]
  apply List.map_congr_left
  intro a ha
  omega

theorem sslice_vals_length {α : Type} [Inhabited α] (m : TMap α) (st : Nat)
    (h : st ≤ m.n) : (sslice_vals m (st : Int)).length = m.n - st := by
  unfold sslice_vals end_indices_for_sslice intRange
  rw [List.length_map, List.length_map, List.length_range]
  omega

theorem sum_map_add_one (l : List Nat) (f : Nat → Nat) :
    (l.map (fun x => f x + 1)).sum = (l.map f).sum + l.length := by
  induction l with
  | nil => rfl
  | cons a t ih => simp only [List.map_cons, List.sum_cons, List.length_cons, ih]; omega

theorem sum_sub_range (n : Nat) :
    ((List.range n).map (fun st => n - st)).sum = size1d_from_n n := by
  induction n with
  | zero => rfl
  | succ k ih =>
    rw [List.range_succ, List.map_append, List.sum_append]
    have hmap : (List.range k).map (fun st => k + 1 - st) =
        (List.range k).map (fun st => (k - st) + 1) := by
      apply List.map_congr_left
      intro a ha
      have := List.mem_range.mp ha
      omega
    rw [hmap, sum_map_add_one (List.range k) (fun st => k - st), ih]
    have := size1d_succ k
    simp
    omega

/-- C5 (amended): for every width `n ≥ 1`, `flatten "+s+e"` succeeds and
returns the concatenation over `start = 0 .. n-1` of the start-slices
(elements `(start, end)` for `end = start+1 .. n`), a 1D sequence of total
length `N = n*(n+1)/2`. -/
theorem C5_flatten_s_e (α : Type) [Inhabited α] (m : TMap α) (hwf : wf m)
    (hn : 1 ≤ m.n) :
    flatten m "+s+e" =
      Except.ok ((List.range m.n).map
        (fun st : Nat => sslice_vals m (st : Int))).join ∧
    (((List.range m.n).map
        (fun st : Nat => sslice_vals m (st : Int))).join).length =
      size1d_from_n m.n := by
  have hjoin :
      (((List.range m.n).map
        (fun st : Nat => sslice_vals m (st : Int))).join).length =
      size1d_from_n m.n := by
    rw [List.length_join, List.map_map]
    have hcongr : ((List.range m.n).map
        (List.length ∘ fun st : Nat => sslice_vals m (st : Int))) =
        (List.range m.n).map (fun st => m.n - st) := by
      apply List.map_congr_left
      intro a ha
      have := List.mem_range.mp ha
      exact sslice_vals_length m a (by omega)
    rw [hcongr, sum_sub_range]
  refine ⟨?_, hjoin⟩
  have hne : (((intRange 0 (m.n : Int)).map
      (fun st => sslice_vals m st)).isEmpty) = false := by
    rcases Nat.exists_eq_add_of_le hn with ⟨k, hk⟩
    rw [hk, intRange_zero, show 1 + k = k + 1 by omega, List.range_succ]
    simp
  show (if ((intRange 0 (m.n : Int)).map (fun st => sslice_vals m st)).isEmpty
      then Except.error FlattenError.emptyConcat
      else Except.ok ((intRange 0 (m.n : Int)).map
        (fun st => sslice_vals m st)).join) =
    Except.ok ((List.range m.n).map
      (fun st : Nat => sslice_vals m (st : Int))).join
  rw [hne]
  rw [if_neg (by simp)]
  rw [intRange_zero, List.map_map]
  rfl

/-- Witness for the amended C5 at a width-1 map. -/
theorem C5_flatten_s_e_witness :
    flatten (⟨[4], 1⟩ : TMap Nat) "+s+e" =
      Except.ok ((List.range (⟨[4], 1⟩ : TMap Nat).n).map
        (fun st : Nat => sslice_vals (⟨[4], 1⟩ : TMap Nat) (st : Int))).join ∧
    (((List.range (⟨[4], 1⟩ : TMap Nat).n).map
        (fun st : Nat => sslice_vals (⟨[4], 1⟩ : TMap Nat) (st : Int))).join).length =
      size1d_from_n (⟨[4], 1⟩ : TMap Nat).n :=
  C5_flatten_s_e Nat ⟨[4], 1⟩ rfl (by decide)

/-- C5 counterexample: on the (valid) empty map of width `n = 0`,
`flatten "+s+e"` does not succeed: the slice tuple is empty and
`np.concatenate` raises, instead of returning a length-0 sequence. -/
theorem C5_flatten_counterexample :
    flatten (⟨[], 0⟩ : TMap Nat) "+s+e" =
      Except.error FlattenError.emptyConcat := rfl

theorem dim_not_sign {c : Char} (h : isDim c = true) : isSign c = false := by
  simp [isDim] at h
  rcases h with (h | h) | h <;> subst h <;> rfl

/-- `flatten_regex` matching, computed on a decomposition of the string into
optional sign, dimension, optional sign, dimension: the match succeeds and
extracts exactly the two dimension characters and the two signs. -/
theorem matchOrder_decomp_eq (s1 s2 : List Char) (d1 d2 : Char)
    (hs1 : s1 = ([] : List Char) ∨ s1 = ['+'] ∨ s1 = ['-'])
    (hs2 : s2 = ([] : List Char) ∨ s2 = ['+'] ∨ s2 = ['-'])
    (hd1 : isDim d1 = true) (hd2 : isDim d2 = true) :
    matchOrder (s1 ++ [d1] ++ s2 ++ [d2]) =
      some (s1 == ['-'], d1, s2 == ['-'], d2) := by
  have hn1 := dim_not_sign hd1
  have hn2 := dim_not_sign hd2
  rcases hs1 with rfl | rfl | rfl <;> rcases hs2 with rfl | rfl | rfl <;>
    simp [matchOrder, hd1, hd2, hn1, hn2,
      show isDim '+' = false from rfl, show isDim '-' = false from rfl,
      show isSign '+' = true from rfl, show isSign '-' = true from rfl]

/-- Conversely, a successful `flatten_regex` match decomposes the string into
optional sign, dimension, optional sign, dimension, with the matched dimension
characters in their places. -/
theorem matchOrder_some_decomp {cs : List Char} {b1 b2 : Bool} {o i : Char}
    (h : matchOrder cs = some (b1, o, b2, i)) :
    ∃ s1 s2, (s1 = ([] : List Char) ∨ s1 = ['+'] ∨ s1 = ['-']) ∧
      (s2 = ([] : List Char) ∨ s2 = ['+'] ∨ s2 = ['-']) ∧
      isDim o = true ∧ isDim i = true ∧ cs = s1 ++ [o] ++ s2 ++ [i] := by
  rcases cs with _ | ⟨a, _ | ⟨b, _ | ⟨c, _ | ⟨d, _ | ⟨e, rest⟩⟩⟩⟩⟩
  · simp [matchOrder] at h
  · simp [matchOrder] at h
  · simp only [matchOrder] at h
    split at h
    · next hc =>
      simp only [Bool.and_eq_true] at hc
      simp only [Option.some.injEq, Prod.mk.injEq] at h
      obtain ⟨-, ho, -, hi⟩ := h
      subst ho; subst hi
      exact ⟨[], [], Or.inl rfl, Or.inl rfl, hc.1, hc.2, by simp⟩
    · simp at h
  · simp only [matchOrder] at h
    split at h
    · next hc =>
      simp only [Bool.and_eq_true] at hc
      simp only [Option.some.injEq, Prod.mk.injEq] at h
      obtain ⟨-, ho, -, hi⟩ := h
      subst ho; subst hi
      have hsa : a = '+' ∨ a = '-' := by
        have := hc.1.1
        simp [isSign] at this
        exact this
      refine ⟨[a], [], ?_, Or.inl rfl, hc.1.2, hc.2, by simp⟩
      rcases hsa with rfl | rfl
      · exact Or.inr (Or.inl rfl)
      · exact Or.inr (Or.inr rfl)
    · split at h
      · next hc =>
        simp only [Bool.and_eq_true] at hc
        simp only [Option.some.injEq, Prod.mk.injEq] at h
        obtain ⟨-, ho, -, hi⟩ := h
        subst ho; subst hi
        have hsb : b = '+' ∨ b = '-' := by
          have := hc.1.2
          simp [isSign] at this
          exact this
        refine ⟨[], [b], Or.inl rfl, ?_, hc.1.1, hc.2, by simp⟩
        rcases hsb with rfl | rfl
        · exact Or.inr (Or.inl rfl)
        · exact Or.inr (Or.inr rfl)
      · simp at h
  · simp only [matchOrder] at h
    split at h
    · next hc =>
      simp only [Bool.and_eq_true] at hc
      simp only [Option.some.injEq, Prod.mk.injEq] at h
      obtain ⟨-, ho, -, hi⟩ := h
      subst ho; subst hi
      have hsa : a = '+' ∨ a = '-' := by
        have := hc.1.1.1
        simp [isSign] at this
        exact this
      have hsc : c = '+' ∨ c = '-' := by
        have := hc.1.2
        simp [isSign] at this
        exact this
      refine ⟨[a], [c], ?_, ?_, hc.1.1.2, hc.2, by simp⟩
      · rcases hsa with rfl | rfl
        · exact Or.inr (Or.inl rfl)
        · exact Or.inr (Or.inr rfl)
      · rcases hsc with rfl | rfl
        · exact Or.inr (Or.inl rfl)
        · exact Or.inr (Or.inr rfl)
    · simp at h
  · simp [matchOrder] at h

/-- Classifier of `flatten` results: `true` exactly on the two errors of the
order validation (regex mismatch and disallowed pairing). -/
def isOrderError {α : Type} : Except FlattenError α → Bool
  | Except.error FlattenError.invalidOrder => true
  | Except.error FlattenError.invalidPairing => true
  | _ => false

/-- The claim's acceptance condition, stated declaratively: the order string
decomposes as optional sign, dimension in `sel`, optional sign, dimension in
`sel` (the pattern `[+-]?(s|e|l)[+-]?(s|e|l)`), and the (outer, inner)
dimension pair is one of `(s,e)`, `(e,s)`, `(l,s)`. Sign and dimension
characters are disjoint, so the decomposition of a given string is unique. -/
def specOrderOk (cs : List Char) : Prop :=
  ∃ s1 d1 s2 d2, (s1 = ([] : List Char) ∨ s1 = ['+'] ∨ s1 = ['-']) ∧
    (s2 = ([] : List Char) ∨ s2 = ['+'] ∨ s2 = ['-']) ∧
    isDim d1 = true ∧ isDim d2 = true ∧ cs = s1 ++ [d1] ++ s2 ++ [d2] ∧
    (d1, d2) ∈ ([('s', 'e'), ('e', 's'), ('l', 's')] : List (Char × Char))

/-- C8: `flatten order` raises an order-validation error (`invalidOrder` or
`invalidPairing`) iff the order string does not match
`[+-]?(s|e|l)[+-]?(s|e|l)` with an (outer, inner) pair among `(s,e)`, `(e,s)`,
`(l,s)`; when both checks are satisfied no order-validation error is raised. -/
theorem C8_order_validation (α : Type) [Inhabited α] (m : TMap α)
    (order : String) :
    isOrderError (flatten m order) = true ↔ ¬ specOrderOk order.data := by
  unfold flatten
  cases hm : matchOrder order.data with
  | none =>
    dsimp only
    constructor
    · intro _ hok
      obtain ⟨s1, d1, s2, d2, hs1, hs2, hd1, hd2, hcs, hpair⟩ := hok
      rw [hcs, matchOrder_decomp_eq s1 s2 d1 d2 hs1 hs2 hd1 hd2] at hm
      exact Option.noConfusion hm
    · intro _
      rfl
  | some r =>
    obtain ⟨b1, o, b2, i⟩ := r
    dsimp only
    by_cases hp : (o, i) ∈ ([('s', 'e'), ('e', 's'), ('l', 's')] : List (Char × Char))
    · rw [if_pos hp]
      obtain ⟨s1, s2, hs1, hs2, hd1, hd2, hcs⟩ := matchOrder_some_decomp hm
      have hok : specOrderOk order.data :=
        ⟨s1, o, s2, i, hs1, hs2, hd1, hd2, hcs, hp⟩
      have hres : ∀ (B : Bool) (J : List α),
          isOrderError (if B then Except.error FlattenError.emptyConcat
            else Except.ok J) = false := by
        intro B J
        cases B <;> rfl
      rw [hres]
      simp [hok]
    · rw [if_neg hp]
      constructor
      · intro _ hok
        obtain ⟨s1, d1, s2, d2, hs1, hs2, hd1, hd2, hcs, hpair⟩ := hok
        rw [hcs, matchOrder_decomp_eq s1 s2 d1 d2 hs1 hs2 hd1 hd2] at hm
        simp only [Option.some.injEq, Prod.mk.injEq] at hm
        obtain ⟨-, ho, -, hi⟩ := hm
        subst ho; subst hi
        exact hp hpair
      · intro _
        rfl

end TriangularMap
